import Mathlib

/-!
Verification of the Bollinger-band anomaly-detection core from
`time_series_anomaly_lesson.ipynb`.

The notebook's statistical core is, per user series `pages_one_user`:

  midband = pages_one_user.ewm(span=span).mean()
  stdev   = pages_one_user.ewm(span=span).std()
  ub      = midband + stdev*weight
  lb      = midband - stdev*weight
  pct_b   = (pages_one_user - lb)/(ub - lb)
  anomalies = my_df[my_df.pct_b > 1]

with pandas defaults `adjust=True`, `bias=False`.  We embed the exact
pandas semantics over exact rationals:

* decay `d = 1 - α`, `α = 2/(span+1)`;
* at index `t` the statistics use the reversed prefix `[x_t, …, x_0]`
  where element `j` steps in the past carries weight `d^j`;
* `mean_t = (Σ d^j x_{t-j}) / (Σ d^j)`;
* the unbiased variance is `(W/(W^2 - W2)) * Σ d^j (x_{t-j} - mean_t)^2`
  with `W = Σ d^j`, `W2 = Σ d^{2j}`, and is NaN (here: `none`) unless
  `W^2 - W2 > 0` (pandas `ewmcov`: `denominator > 0`);
* pandas raises `ValueError` when `span < 1` (here: `Except.error`).

Floating-point non-finite values are modelled as follows: a NaN
statistic is `none`; `pct_b`'s column value is `none` whenever its
denominator `ub - lb` is zero (IEEE would give NaN or ±∞ there, none of
which is a defined band position); the anomaly filter `pct_b > 1`
evaluates the IEEE comparison, which is true for +∞ (numerator positive,
denominator zero) and false for NaN and −∞ — `isAnomaly` mirrors that
exactly.
-/

/-- Weighted sum `Σ d^j · ys_j` over a reversed prefix (most recent first). -/
def wSum (d : ℚ) : List ℚ → ℚ
  | [] => 0
  | y :: ys => y + d * wSum d ys

/-- Sum of the weights, `Σ_{j<n} d^j`. -/
def sumW (d : ℚ) : ℕ → ℚ
  | 0 => 0
  | n + 1 => 1 + d * sumW d n

/-- Weighted sum of squared deviations from `m`, `Σ d^j (ys_j - m)^2`. -/
def wSqDevSum (d m : ℚ) : List ℚ → ℚ
  | [] => 0
  | y :: ys => (y - m) ^ 2 + d * wSqDevSum d m ys

/-- `ewm(...).mean()` over a reversed prefix: weighted mean with
geometrically decaying weights (pandas `adjust=True`). -/
def ewmMeanRev (d : ℚ) (ys : List ℚ) : ℚ :=
  wSum d ys / sumW d ys.length

/-- `ewm(...).var(bias=False)` over a reversed prefix: the debiased
weighted variance, `none` exactly when pandas emits NaN
(`W^2 - Σ d^{2j} ≤ 0`, e.g. a single observation, or `d = 0`). -/
def ewmVarRev (d : ℚ) (ys : List ℚ) : Option ℚ :=
  if 0 < sumW d ys.length ^ 2 - sumW (d ^ 2) ys.length then
    some (sumW d ys.length / (sumW d ys.length ^ 2 - sumW (d ^ 2) ys.length) *
      wSqDevSum d (ewmMeanRev d ys) ys)
  else none

/-- The reversed prefix `[x_t, …, x_0]` feeding the statistics at index `t`. -/
def takeRev (xs : List ℚ) (t : ℕ) : List ℚ :=
  (xs.take (t + 1)).reverse

/-- The series value at index `t` (the `pages_one_user` column). -/
def valueAt (xs : List ℚ) (t : ℕ) : ℚ :=
  xs.getD t 0

/-- pandas: `α = 2/(span+1)` for `ewm(span=span)`. -/
def alphaOfSpan (span : ℚ) : ℚ :=
  2 / (span + 1)

/-- Per-step decay of the weights, `d = 1 - α`. -/
def decayOfSpan (span : ℚ) : ℚ :=
  1 - alphaOfSpan span

/-- The `midband` column at index `t`. -/
def midbandAt (xs : List ℚ) (span : ℚ) (t : ℕ) : ℚ :=
  ewmMeanRev (decayOfSpan span) (takeRev xs t)

/-- The exact weighted variance behind the `stdev` column at index `t`;
`none` models NaN. -/
def varAt (xs : List ℚ) (span : ℚ) (t : ℕ) : Option ℚ :=
  ewmVarRev (decayOfSpan span) (takeRev xs t)

/-- The `stdev` column at index `t`: square root of the weighted variance. -/
noncomputable def stdevAt (xs : List ℚ) (span : ℚ) (t : ℕ) : Option ℝ :=
  (varAt xs span t).map fun v => Real.sqrt (v : ℝ)

/-- The `ub` column: `midband + stdev*weight`. -/
noncomputable def ubAt (xs : List ℚ) (span K : ℚ) (t : ℕ) : Option ℝ :=
  (stdevAt xs span t).map fun s => (midbandAt xs span t : ℝ) + s * (K : ℝ)

/-- The `lb` column: `midband - stdev*weight`. -/
noncomputable def lbAt (xs : List ℚ) (span K : ℚ) (t : ℕ) : Option ℝ :=
  (stdevAt xs span t).map fun s => (midbandAt xs span t : ℝ) - s * (K : ℝ)

/-- The `pct_b` column, `(pages_one_user - lb)/(ub - lb)`: `none` when the
statistic is non-finite (NaN stdev propagates; a zero-width band gives an
IEEE NaN or ±∞ quotient, never a defined position). -/
noncomputable def pct_bAt (xs : List ℚ) (span K : ℚ) (t : ℕ) : Option ℝ :=
  match varAt xs span t with
  | none => none
  | some v =>
    if (midbandAt xs span t : ℝ) + Real.sqrt (v : ℝ) * (K : ℝ) =
        (midbandAt xs span t : ℝ) - Real.sqrt (v : ℝ) * (K : ℝ) then none
    else some (((valueAt xs t : ℝ) -
        ((midbandAt xs span t : ℝ) - Real.sqrt (v : ℝ) * (K : ℝ))) /
      (((midbandAt xs span t : ℝ) + Real.sqrt (v : ℝ) * (K : ℝ)) -
        ((midbandAt xs span t : ℝ) - Real.sqrt (v : ℝ) * (K : ℝ))))

/-- The row filter `my_df.pct_b > 1` of `find_anomalies`, with IEEE
semantics spelled out: a finite quotient is compared to 1; a zero
denominator with positive numerator is +∞ (which passes the filter);
NaN and −∞ fail it. -/
def isAnomaly (xs : List ℚ) (span K : ℚ) (t : ℕ) : Prop :=
  match varAt xs span t with
  | none => False
  | some v =>
    ((midbandAt xs span t : ℝ) + Real.sqrt (v : ℝ) * (K : ℝ) ≠
        (midbandAt xs span t : ℝ) - Real.sqrt (v : ℝ) * (K : ℝ) ∧
      1 < ((valueAt xs t : ℝ) -
          ((midbandAt xs span t : ℝ) - Real.sqrt (v : ℝ) * (K : ℝ))) /
        (((midbandAt xs span t : ℝ) + Real.sqrt (v : ℝ) * (K : ℝ)) -
          ((midbandAt xs span t : ℝ) - Real.sqrt (v : ℝ) * (K : ℝ)))) ∨
    ((midbandAt xs span t : ℝ) + Real.sqrt (v : ℝ) * (K : ℝ) =
        (midbandAt xs span t : ℝ) - Real.sqrt (v : ℝ) * (K : ℝ) ∧
      0 < (valueAt xs t : ℝ) -
        ((midbandAt xs span t : ℝ) - Real.sqrt (v : ℝ) * (K : ℝ)))

/-- The set of row indices returned by `my_df[my_df.pct_b > 1]`. -/
def anomalySet (xs : List ℚ) (span K : ℚ) : Set ℕ :=
  {t | t < xs.length ∧ isAnomaly xs span K t}

/-- One row of `my_df`: the rational core of a band record (the derived
real-valued columns `stdev`, `ub`, `lb`, `pct_b` are the functions
`stdevAt`, `ubAt`, `lbAt`, `pct_bAt` of the row index). -/
structure BandRecord where
  value : ℚ
  midband : ℚ
  variance : Option ℚ
deriving DecidableEq

/-- `compute_pct_b`: build the per-index band table for one series.  The
`ValueError` pandas raises from `ewm(span=span)` when `span < 1` is the
`Except.error` branch; no other validation exists in the source (`K` is
accepted unchecked, which is why it is unused in the rational core). -/
def compute_pct_b (xs : List ℚ) (span K : ℚ) : Except String (List BandRecord) :=
  if span < 1 then Except.error "span must satisfy: span >= 1"
  else Except.ok ((List.range xs.length).map fun t =>
    { value := valueAt xs t, midband := midbandAt xs span t, variance := varAt xs span t })

/-- The dates of one user's events (`df[df.user_id == user]`, date column). -/
def one_user_events (events : List (ℕ × ℕ)) (user : ℕ) : List ℕ :=
  (events.filter fun e => e.1 == user).map Prod.snd

/-- `one_user_df_prep`: `resample('d').count()` for one user — one row per
calendar day from the first to the last observed date (days are modelled
as day ordinals), counting that day's events, zero for gap days. -/
def one_user_df_prep (events : List (ℕ × ℕ)) (user : ℕ) : List (ℕ × ℕ) :=
  match one_user_events events user with
  | [] => []
  | d0 :: rest =>
    let lo := rest.foldl min d0
    let hi := rest.foldl max d0
    (List.range (hi + 1 - lo)).map fun i =>
      (lo + i, (d0 :: rest).count (lo + i))

/-- `find_anomalies`: prep one user's daily counts, build the band table,
return the rows with `pct_b > 1`. -/
def find_anomalies (events : List (ℕ × ℕ)) (user : ℕ) (span K : ℚ) :
    Except String (Set ℕ) :=
  if span < 1 then Except.error "span must satisfy: span >= 1"
  else Except.ok
    (anomalySet ((one_user_df_prep events user).map fun p => (p.2 : ℚ)) span K)

/-- The spec's concrete single-entity scenario: daily counts for one user. -/
def scenarioSeries : List ℚ := [2, 3, 2, 4, 3, 2, 3, 50]

/-! ### Basic facts about the weighted sums -/

theorem sumW_nonneg {d : ℚ} (hd : 0 ≤ d) (n : ℕ) : 0 ≤ sumW d n := by
  induction n with
  | zero => simp [sumW]
  | succ n ih => simp only [sumW]; positivity

theorem one_le_sumW {d : ℚ} (hd : 0 ≤ d) {n : ℕ} (hn : 1 ≤ n) : 1 ≤ sumW d n := by
  obtain ⟨m, rfl⟩ : ∃ m, n = m + 1 := ⟨n - 1, by omega⟩
  have := sumW_nonneg hd m
  simp only [sumW]
  nlinarith

theorem sumW_pos {d : ℚ} (hd : 0 ≤ d) {n : ℕ} (hn : 1 ≤ n) : 0 < sumW d n :=
  lt_of_lt_of_le one_pos (one_le_sumW hd hn)

theorem sumW_sq_le {d : ℚ} (hd : 0 ≤ d) (n : ℕ) : sumW (d ^ 2) n ≤ (sumW d n) ^ 2 := by
  induction n with
  | zero => simp [sumW]
  | succ n ih =>
    have h0 := sumW_nonneg hd n
    simp only [sumW]
    nlinarith

theorem sumW_sq_lt {d : ℚ} (hd : 0 < d) {n : ℕ} (hn : 2 ≤ n) :
    sumW (d ^ 2) n < (sumW d n) ^ 2 := by
  obtain ⟨m, rfl⟩ : ∃ m, n = m + 1 := ⟨n - 1, by omega⟩
  have hm : 1 ≤ m := by omega
  have h1 := one_le_sumW hd.le hm
  have h2 := sumW_sq_le hd.le m
  simp only [sumW]
  nlinarith

theorem wSqDevSum_nonneg {d : ℚ} (hd : 0 ≤ d) (m : ℚ) (ys : List ℚ) :
    0 ≤ wSqDevSum d m ys := by
  induction ys with
  | nil => simp [wSqDevSum]
  | cons y ys ih => simp only [wSqDevSum]; positivity

theorem wSqDevSum_eq_zero {d : ℚ} (hd : 0 < d) {m : ℚ} {ys : List ℚ}
    (h : wSqDevSum d m ys = 0) : ∀ y ∈ ys, y = m := by
  induction ys with
  | nil => simp
  | cons y ys ih =>
    simp only [wSqDevSum] at h
    have h1 : 0 ≤ (y - m) ^ 2 := sq_nonneg _
    have h2 : 0 ≤ wSqDevSum d m ys := wSqDevSum_nonneg hd.le m ys
    have hy : (y - m) ^ 2 = 0 := by nlinarith
    have htail : wSqDevSum d m ys = 0 := by nlinarith
    intro z hz
    rcases List.mem_cons.mp hz with rfl | hz
    · have := pow_eq_zero_iff (n := 2) (by norm_num) |>.mp hy
      linarith [sub_eq_zero.mp this]
    · exact ih htail z hz

/-! ### The weighted variance: sign, definedness, degeneracy -/

theorem ewmVarRev_nonneg {d : ℚ} (hd : 0 ≤ d) {ys : List ℚ} {v : ℚ}
    (hv : ewmVarRev d ys = some v) : 0 ≤ v := by
  unfold ewmVarRev at hv
  split at hv
  · rename_i hpos
    have hW := sumW_nonneg hd ys.length
    have hQ := wSqDevSum_nonneg hd (ewmMeanRev d ys) ys
    have hval : sumW d ys.length / (sumW d ys.length ^ 2 - sumW (d ^ 2) ys.length) *
        wSqDevSum d (ewmMeanRev d ys) ys = v := Option.some.injEq _ _ ▸ hv
    rw [← hval]
    positivity
  · exact absurd hv (by simp)

theorem ewmVarRev_decay_zero (ys : List ℚ) : ewmVarRev 0 ys = none := by
  unfold ewmVarRev
  have h1 : ∀ n : ℕ, sumW (0 : ℚ) n ≤ 1 := by
    intro n
    cases n with
    | zero => simp [sumW]
    | succ n => simp [sumW]
  have h0 : ∀ n : ℕ, 0 ≤ sumW (0 : ℚ) n := fun n => sumW_nonneg le_rfl n
  have heq : sumW ((0 : ℚ) ^ 2) ys.length = sumW (0 : ℚ) ys.length := by norm_num
  rw [heq, if_neg]
  push_neg
  nlinarith [h1 ys.length, h0 ys.length]

theorem ewmVarRev_isSome {d : ℚ} (hd : 0 < d) {ys : List ℚ} (hn : 2 ≤ ys.length) :
    ∃ v, ewmVarRev d ys = some v := by
  unfold ewmVarRev
  rw [if_pos (sub_pos.mpr (sumW_sq_lt hd hn))]
  exact ⟨_, rfl⟩

theorem ewmVarRev_zero_all_eq {d : ℚ} (hd : 0 < d) {ys : List ℚ}
    (hv : ewmVarRev d ys = some 0) : ∀ y ∈ ys, y = ewmMeanRev d ys := by
  unfold ewmVarRev at hv
  split at hv
  · rename_i hpos
    have hW : 0 < sumW d ys.length := by
      rcases ys with _ | ⟨y, ys⟩
      · simp [sumW] at hpos
      · exact sumW_pos hd.le (by simp)
    have hfac : 0 < sumW d ys.length / (sumW d ys.length ^ 2 - sumW (d ^ 2) ys.length) :=
      div_pos hW hpos
    have h' : sumW d ys.length / (sumW d ys.length ^ 2 - sumW (d ^ 2) ys.length) *
        wSqDevSum d (ewmMeanRev d ys) ys = 0 := Option.some.injEq _ _ ▸ hv
    have hQ0 : wSqDevSum d (ewmMeanRev d ys) ys = 0 := by
      rcases mul_eq_zero.mp h' with h'' | h''
      · exact absurd h'' (ne_of_gt hfac)
      · exact h''
    exact wSqDevSum_eq_zero hd hQ0
  · exact absurd hv (by simp)

/-! ### Decay factor -/

theorem decay_nonneg {span : ℚ} (h : 1 ≤ span) : 0 ≤ decayOfSpan span := by
  unfold decayOfSpan alphaOfSpan
  have h1 : (0 : ℚ) < span + 1 := by linarith
  rw [sub_nonneg, div_le_one h1]
  linarith

theorem decay_pos {span : ℚ} (h : 1 < span) : 0 < decayOfSpan span := by
  unfold decayOfSpan alphaOfSpan
  have h1 : (0 : ℚ) < span + 1 := by linarith
  rw [sub_pos, div_lt_one h1]
  linarith

theorem decay_one : decayOfSpan 1 = 0 := by norm_num [decayOfSpan, alphaOfSpan]

theorem decay_pos_of_var_some {xs : List ℚ} {span : ℚ} {t : ℕ} {v : ℚ}
    (hspan : 1 ≤ span) (hv : varAt xs span t = some v) : 0 < decayOfSpan span := by
  rcases lt_or_eq_of_le (decay_nonneg hspan) with h | h
  · exact h
  · exact absurd hv (by rw [varAt, ← h, ewmVarRev_decay_zero]; simp)

/-! ### Structure of the reversed prefix -/

theorem takeRev_eq_cons {xs : List ℚ} {t : ℕ} (ht : t < xs.length) :
    takeRev xs t = valueAt xs t :: (xs.take t).reverse := by
  unfold takeRev valueAt
  rw [List.take_succ]
  have h : xs[t]? = some xs[t] := List.getElem?_eq_getElem ht
  simp [h, List.getD_eq_getElem?_getD]

theorem takeRev_length {xs : List ℚ} {t : ℕ} (ht : t < xs.length) :
    (takeRev xs t).length = t + 1 := by
  unfold takeRev
  simp [List.length_take]
  omega

theorem valueAt_mem_takeRev {xs : List ℚ} {t : ℕ} (ht : t < xs.length) :
    valueAt xs t ∈ takeRev xs t := by
  rw [takeRev_eq_cons ht]
  exact List.mem_cons_self _ _

/-! ### First observation of a series -/

theorem midbandAt_zero (x : ℚ) (rest : List ℚ) (span : ℚ) :
    midbandAt (x :: rest) span 0 = x := by
  simp [midbandAt, takeRev, ewmMeanRev, wSum, sumW]

theorem varAt_zero (x : ℚ) (rest : List ℚ) (span : ℚ) :
    varAt (x :: rest) span 0 = none := by
  simp [varAt, takeRev, ewmVarRev, sumW]

theorem varAt_isSome {xs : List ℚ} {span : ℚ} {t : ℕ} (hspan : 1 < span)
    (ht1 : 1 ≤ t) (ht : t < xs.length) : ∃ v, varAt xs span t = some v := by
  have hlen : 2 ≤ (takeRev xs t).length := by rw [takeRev_length ht]; omega
  exact ewmVarRev_isSome (decay_pos hspan) hlen

theorem varAt_nonneg {xs : List ℚ} {span : ℚ} {t : ℕ} {v : ℚ}
    (hspan : 1 ≤ span) (hv : varAt xs span t = some v) : 0 ≤ v :=
  ewmVarRev_nonneg (decay_nonneg hspan) hv

theorem varAt_span_one {xs : List ℚ} {t : ℕ} : varAt xs 1 t = none := by
  rw [varAt, decay_one, ewmVarRev_decay_zero]

/-- At an in-range index with zero weighted variance, the observed value
equals the weighted mean (all weights are positive once the variance is
defined at all, so zero variance forces a constant prefix). -/
theorem valueAt_eq_midband_of_var_zero {xs : List ℚ} {span : ℚ} {t : ℕ}
    (hspan : 1 ≤ span) (ht : t < xs.length) (hv : varAt xs span t = some 0) :
    valueAt xs t = midbandAt xs span t := by
  have hd : 0 < decayOfSpan span := decay_pos_of_var_some hspan hv
  exact ewmVarRev_zero_all_eq hd hv (valueAt xs t) (valueAt_mem_takeRev ht)

/-! ### Reducing the real-valued score to rational conditions -/

theorem pct_bAt_of_var_none {xs : List ℚ} {span K : ℚ} {t : ℕ}
    (h : varAt xs span t = none) : pct_bAt xs span K t = none := by
  simp [pct_bAt, h]

theorem pct_bAt_of_var_zero {xs : List ℚ} {span K : ℚ} {t : ℕ}
    (h : varAt xs span t = some 0) : pct_bAt xs span K t = none := by
  simp [pct_bAt, h]

theorem isAnomaly_of_var_none {xs : List ℚ} {span K : ℚ} {t : ℕ}
    (h : varAt xs span t = none) : ¬ isAnomaly xs span K t := by
  simp [isAnomaly, h]

/-- With a positive multiplier and positive variance, `pct_b` is the finite
quotient of the source formula. -/
theorem pct_bAt_of_var_pos {xs : List ℚ} {span K : ℚ} {t : ℕ} {v : ℚ}
    (hK : 0 < K) (hv : varAt xs span t = some v) (hvpos : 0 < v) :
    pct_bAt xs span K t = some
      (((valueAt xs t : ℝ) -
          ((midbandAt xs span t : ℝ) - Real.sqrt (v : ℝ) * (K : ℝ))) /
        (((midbandAt xs span t : ℝ) + Real.sqrt (v : ℝ) * (K : ℝ)) -
          ((midbandAt xs span t : ℝ) - Real.sqrt (v : ℝ) * (K : ℝ)))) := by
  have hs : 0 < Real.sqrt (v : ℝ) := Real.sqrt_pos.mpr (by exact_mod_cast hvpos)
  have hKR : (0 : ℝ) < (K : ℝ) := by exact_mod_cast hK
  have hne : (midbandAt xs span t : ℝ) + Real.sqrt (v : ℝ) * (K : ℝ) ≠
      (midbandAt xs span t : ℝ) - Real.sqrt (v : ℝ) * (K : ℝ) := by
    have : 0 < Real.sqrt (v : ℝ) * (K : ℝ) := mul_pos hs hKR
    intro h
    nlinarith
  simp [pct_bAt, hv, hne]

/-- `K * stdev` equals the square root of `K^2 * var` (positive `K`). -/
theorem sqrt_scale {v K : ℚ} (hK : 0 < K) :
    Real.sqrt (v : ℝ) * (K : ℝ) = Real.sqrt ((K ^ 2 * v : ℚ) : ℝ) := by
  have hKR : (0 : ℝ) ≤ (K : ℝ) := by exact_mod_cast hK.le
  push_cast
  rw [Real.sqrt_mul (by positivity), Real.sqrt_sq hKR]
  ring

theorem add_ne_sub_of_pos {m a : ℝ} (ha : 0 < a) : m + a ≠ m - a := by
  intro h
  linarith

theorem div_band_le_one {x m a : ℝ} (ha : 0 < a) :
    (x - (m - a)) / ((m + a) - (m - a)) ≤ 1 ↔ x - m ≤ a := by
  rw [div_le_one (by linarith)]
  constructor <;> intro h <;> linarith

theorem one_lt_div_band {x m a : ℝ} (ha : 0 < a) :
    1 < (x - (m - a)) / ((m + a) - (m - a)) ↔ a < x - m := by
  rw [one_lt_div (by linarith)]
  constructor <;> intro h <;> linarith

theorem sub_le_sqrt_iff {x m c : ℝ} (hc : 0 ≤ c) :
    x - m ≤ Real.sqrt c ↔ (x ≤ m ∨ (x - m) ^ 2 ≤ c) := by
  constructor
  · intro h
    by_cases hxm : x ≤ m
    · exact Or.inl hxm
    · push_neg at hxm
      exact Or.inr ((Real.le_sqrt (by linarith) hc).mp h)
  · rintro (h | h)
    · linarith [Real.sqrt_nonneg c]
    · exact Real.le_sqrt_of_sq_le h

theorem sqrt_lt_sub_iff {x m c : ℝ} :
    Real.sqrt c < x - m ↔ (m < x ∧ c < (x - m) ^ 2) := by
  constructor
  · intro h
    have h0 : 0 < x - m := lt_of_le_of_lt (Real.sqrt_nonneg c) h
    exact ⟨by linarith, (Real.sqrt_lt' h0).mp h⟩
  · rintro ⟨h1, h2⟩
    exact (Real.sqrt_lt' (by linarith)).mpr h2

/-- With positive variance, `pct_b ≤ 1` holds exactly when the value is at
or below the midband, or its squared deviation is within `K^2 · var`. -/
theorem pct_b_le_one_iff {xs : List ℚ} {span K : ℚ} {t : ℕ} {v : ℚ}
    (hK : 0 < K) (hv : varAt xs span t = some v) (hvpos : 0 < v) :
    (∃ p, pct_bAt xs span K t = some p ∧ p ≤ 1) ↔
      (valueAt xs t ≤ midbandAt xs span t ∨
        (valueAt xs t - midbandAt xs span t) ^ 2 ≤ K ^ 2 * v) := by
  have hs : 0 < Real.sqrt (v : ℝ) := Real.sqrt_pos.mpr (by exact_mod_cast hvpos)
  have hKR : (0 : ℝ) < (K : ℝ) := by exact_mod_cast hK
  have ha : 0 < Real.sqrt (v : ℝ) * (K : ℝ) := mul_pos hs hKR
  have hc : (0 : ℝ) ≤ ((K ^ 2 * v : ℚ) : ℝ) := by
    have : (0 : ℚ) ≤ K ^ 2 * v := by positivity
    exact_mod_cast this
  rw [pct_bAt_of_var_pos hK hv hvpos]
  simp only [Option.some.injEq, exists_eq_left']
  rw [div_band_le_one ha, sqrt_scale hK, sub_le_sqrt_iff hc]
  constructor
  · rintro (h | h)
    · exact Or.inl (by exact_mod_cast h)
    · exact Or.inr (by exact_mod_cast h)
  · rintro (h | h)
    · exact Or.inl (by exact_mod_cast h)
    · exact Or.inr (by exact_mod_cast h)

/-- With positive variance, `pct_b > 1` holds exactly when the value is
strictly above the midband and its squared deviation exceeds `K^2 · var`. -/
theorem pct_b_one_lt_iff {xs : List ℚ} {span K : ℚ} {t : ℕ} {v : ℚ}
    (hK : 0 < K) (hv : varAt xs span t = some v) (hvpos : 0 < v) :
    (∃ p, pct_bAt xs span K t = some p ∧ 1 < p) ↔
      (midbandAt xs span t < valueAt xs t ∧
        K ^ 2 * v < (valueAt xs t - midbandAt xs span t) ^ 2) := by
  have hs : 0 < Real.sqrt (v : ℝ) := Real.sqrt_pos.mpr (by exact_mod_cast hvpos)
  have hKR : (0 : ℝ) < (K : ℝ) := by exact_mod_cast hK
  have ha : 0 < Real.sqrt (v : ℝ) * (K : ℝ) := mul_pos hs hKR
  rw [pct_bAt_of_var_pos hK hv hvpos]
  simp only [Option.some.injEq, exists_eq_left']
  rw [one_lt_div_band ha, sqrt_scale hK, sqrt_lt_sub_iff]
  constructor
  · rintro ⟨h1, h2⟩
    exact ⟨by exact_mod_cast h1, by exact_mod_cast h2⟩
  · rintro ⟨h1, h2⟩
    exact ⟨by exact_mod_cast h1, by exact_mod_cast h2⟩

/-- The row filter of `find_anomalies`, reduced to a decidable rational
condition: defined variance, value strictly above the midband, squared
deviation beyond `K^2 · var`. -/
theorem isAnomaly_iff {xs : List ℚ} {span K : ℚ} {t : ℕ} {v : ℚ}
    (hspan : 1 ≤ span) (hK : 0 < K) (hv : varAt xs span t = some v) :
    isAnomaly xs span K t ↔
      (midbandAt xs span t < valueAt xs t ∧
        K ^ 2 * v < (valueAt xs t - midbandAt xs span t) ^ 2) := by
  have hv0 : 0 ≤ v := varAt_nonneg hspan hv
  have hKR : (0 : ℝ) < (K : ℝ) := by exact_mod_cast hK
  rcases hv0.lt_or_eq with hvpos | hvzero
  · have hs : 0 < Real.sqrt (v : ℝ) := Real.sqrt_pos.mpr (by exact_mod_cast hvpos)
    have ha : 0 < Real.sqrt (v : ℝ) * (K : ℝ) := mul_pos hs hKR
    have hne := add_ne_sub_of_pos (m := (midbandAt xs span t : ℝ)) ha
    simp only [isAnomaly, hv, hne, ne_eq, not_false_eq_true, true_and, false_and, or_false]
    rw [one_lt_div_band ha, sqrt_scale hK, sqrt_lt_sub_iff]
    constructor
    · rintro ⟨h1, h2⟩
      exact ⟨by exact_mod_cast h1, by exact_mod_cast h2⟩
    · rintro ⟨h1, h2⟩
      exact ⟨by exact_mod_cast h1, by exact_mod_cast h2⟩
  · subst hvzero
    have hs0 : Real.sqrt ((0 : ℚ) : ℝ) = 0 := by
      rw [Rat.cast_zero, Real.sqrt_zero]
    simp only [isAnomaly, hs0, zero_mul, add_zero, sub_zero, ne_eq, not_true_eq_false,
      false_and, true_and, false_or, hv]
    constructor
    · intro h
      have hlt : midbandAt xs span t < valueAt xs t := by exact_mod_cast sub_pos.mp h
      refine ⟨hlt, ?_⟩
      have : valueAt xs t - midbandAt xs span t ≠ 0 := by
        intro h0
        rw [sub_eq_zero] at h0
        exact absurd h0 (ne_of_gt hlt)
      simpa using pow_pos (sub_pos.mpr hlt) 2
    · rintro ⟨h1, _⟩
      have : (midbandAt xs span t : ℝ) < (valueAt xs t : ℝ) := by exact_mod_cast h1
      linarith

/-! ### The weighted mean is a convex combination -/

theorem wSum_le_mul {d b : ℚ} (hd : 0 ≤ d) {ys : List ℚ} (h : ∀ y ∈ ys, y ≤ b) :
    wSum d ys ≤ b * sumW d ys.length := by
  induction ys with
  | nil => simp [wSum, sumW]
  | cons y ys ih =>
    have hy := h y (List.mem_cons_self _ _)
    have htail := ih fun z hz => h z (List.mem_cons_of_mem _ hz)
    have := mul_le_mul_of_nonneg_left htail hd
    simp only [wSum, List.length_cons, sumW]
    nlinarith

theorem mul_le_wSum {d a : ℚ} (hd : 0 ≤ d) {ys : List ℚ} (h : ∀ y ∈ ys, a ≤ y) :
    a * sumW d ys.length ≤ wSum d ys := by
  induction ys with
  | nil => simp [wSum, sumW]
  | cons y ys ih =>
    have hy := h y (List.mem_cons_self _ _)
    have htail := ih fun z hz => h z (List.mem_cons_of_mem _ hz)
    have := mul_le_mul_of_nonneg_left htail hd
    simp only [wSum, List.length_cons, sumW]
    nlinarith

theorem ewmMeanRev_le {d b : ℚ} (hd : 0 ≤ d) {ys : List ℚ} (hne : ys ≠ [])
    (h : ∀ y ∈ ys, y ≤ b) : ewmMeanRev d ys ≤ b := by
  have hlen : 1 ≤ ys.length := by
    cases ys with
    | nil => exact absurd rfl hne
    | cons y ys => simp
  rw [ewmMeanRev, div_le_iff₀ (sumW_pos hd hlen)]
  exact wSum_le_mul hd h

theorem le_ewmMeanRev {d a : ℚ} (hd : 0 ≤ d) {ys : List ℚ} (hne : ys ≠ [])
    (h : ∀ y ∈ ys, a ≤ y) : a ≤ ewmMeanRev d ys := by
  have hlen : 1 ≤ ys.length := by
    cases ys with
    | nil => exact absurd rfl hne
    | cons y ys => simp
  rw [ewmMeanRev, le_div_iff₀ (sumW_pos hd hlen)]
  exact mul_le_wSum hd h

/-! ### Folded minimum and maximum of a nonempty list -/

theorem foldl_min_le {α : Type _} [LinearOrder α] (l : List α) :
    ∀ (a : α), ∀ x ∈ a :: l, List.foldl min a l ≤ x := by
  induction l with
  | nil =>
    intro a x hx
    rcases List.mem_cons.mp hx with rfl | hx
    · simp
    · simp at hx
  | cons b l ih =>
    intro a x hx
    have hhead : List.foldl min a (b :: l) ≤ min a b :=
      ih (min a b) (min a b) (List.mem_cons_self _ _)
    rcases List.mem_cons.mp hx with rfl | hx'
    · exact le_trans hhead (min_le_left _ _)
    · rcases List.mem_cons.mp hx' with rfl | hx''
      · exact le_trans hhead (min_le_right _ _)
      · exact ih (min a b) x (List.mem_cons_of_mem _ hx'')

theorem le_foldl_max {α : Type _} [LinearOrder α] (l : List α) :
    ∀ (a : α), ∀ x ∈ a :: l, x ≤ List.foldl max a l := by
  induction l with
  | nil =>
    intro a x hx
    rcases List.mem_cons.mp hx with rfl | hx
    · simp
    · simp at hx
  | cons b l ih =>
    intro a x hx
    have hhead : max a b ≤ List.foldl max a (b :: l) :=
      ih (max a b) (max a b) (List.mem_cons_self _ _)
    rcases List.mem_cons.mp hx with rfl | hx'
    · exact le_trans (le_max_left _ _) hhead
    · rcases List.mem_cons.mp hx' with rfl | hx''
      · exact le_trans (le_max_right _ _) hhead
      · exact ih (max a b) x (List.mem_cons_of_mem _ hx'')

theorem foldl_min_mem {α : Type _} [LinearOrder α] (l : List α) :
    ∀ (a : α), List.foldl min a l ∈ a :: l := by
  induction l with
  | nil => intro a; simp
  | cons b l ih =>
    intro a
    have hfold : List.foldl min a (b :: l) = List.foldl min (min a b) l := by
      rw [List.foldl_cons]
    rcases List.mem_cons.mp (ih (min a b)) with heq | hmem
    · rw [hfold, heq]
      rcases min_choice a b with hab | hab
      · rw [hab]; exact List.mem_cons_self _ _
      · rw [hab]; exact List.mem_cons_of_mem _ (List.mem_cons_self _ _)
    · rw [hfold]
      exact List.mem_cons_of_mem _ (List.mem_cons_of_mem _ hmem)

theorem foldl_max_mem {α : Type _} [LinearOrder α] (l : List α) :
    ∀ (a : α), List.foldl max a l ∈ a :: l := by
  induction l with
  | nil => intro a; simp
  | cons b l ih =>
    intro a
    have hfold : List.foldl max a (b :: l) = List.foldl max (max a b) l := by
      rw [List.foldl_cons]
    rcases List.mem_cons.mp (ih (max a b)) with heq | hmem
    · rw [hfold, heq]
      rcases max_choice a b with hab | hab
      · rw [hab]; exact List.mem_cons_self _ _
      · rw [hab]; exact List.mem_cons_of_mem _ (List.mem_cons_self _ _)
    · rw [hfold]
      exact List.mem_cons_of_mem _ (List.mem_cons_of_mem _ hmem)

example : varAt [2, 3] 3 1 = some (1/2) := by
  norm_num [varAt, ewmVarRev, takeRev, ewmMeanRev, wSum, sumW, wSqDevSum,
    decayOfSpan, alphaOfSpan]
example : midbandAt [2, 3] 3 1 = 8/3 := by
  norm_num [midbandAt, ewmMeanRev, takeRev, wSum, sumW, decayOfSpan, alphaOfSpan]
example : varAt [2, 3] 3 0 = none := by
  norm_num [varAt, ewmVarRev, takeRev, ewmMeanRev, wSum, sumW, wSqDevSum,
    decayOfSpan, alphaOfSpan]
example : one_user_df_prep [(1, 10), (1, 10), (2, 3), (1, 14)] 1 =
    [(10, 2), (11, 0), (12, 0), (13, 0), (14, 1)] := by decide

/-! ## Claims -/

/-- C2 counterexample: the claim asserts that for every nonempty series the
weighted standard deviation is defined at every position after the first;
with the legal configuration span = 1 (α = 1) pandas leaves it undefined
at every position, e.g. for the series `[0, 1]` at position 1. -/
theorem c2_counterexample :
    ¬ (∀ (xs : List ℚ) (span : ℚ), 1 ≤ span → xs ≠ [] →
        ∀ t, 1 ≤ t → t < xs.length → (varAt xs span t).isSome = true) := by
  intro h
  have h01 := h [0, 1] 1 le_rfl (by simp) 1 le_rfl (by simp)
  rw [varAt_span_one] at h01
  simp at h01

/-- C2 amended: for every nonempty count series and span ≥ 1, the mean at
the first position equals the first value and the variance is undefined
there; for span > 1 the variance is defined at every later in-range
position, while for span = 1 it is undefined at every position. -/
theorem c2_theorem (x : ℚ) (rest : List ℚ) (span : ℚ) (hspan : 1 ≤ span) :
    midbandAt (x :: rest) span 0 = x ∧
    varAt (x :: rest) span 0 = none ∧
    (1 < span → ∀ t, 1 ≤ t → t < (x :: rest).length →
      (varAt (x :: rest) span t).isSome = true) ∧
    (span = 1 → ∀ t, varAt (x :: rest) span t = none) := by
  refine ⟨midbandAt_zero x rest span, varAt_zero x rest span, ?_, ?_⟩
  · intro hspan1 t ht1 htlen
    obtain ⟨v, hv⟩ := varAt_isSome hspan1 ht1 htlen
    rw [hv]
    rfl
  · intro h1
    subst h1
    intro t
    exact varAt_span_one

/-- C2 witness: the amended statement at the concrete series `[5, 7]`
with span 3. -/
theorem c2_witness :
    (1 : ℚ) ≤ 3 ∧
    (midbandAt (5 :: [7]) 3 0 = 5 ∧
      varAt (5 :: [7]) 3 0 = none ∧
      (1 < (3 : ℚ) → ∀ t, 1 ≤ t → t < ((5 : ℚ) :: [7]).length →
        (varAt (5 :: [7]) 3 t).isSome = true) ∧
      ((3 : ℚ) = 1 → ∀ t, varAt (5 :: [7]) 3 t = none)) :=
  ⟨by norm_num, c2_theorem 5 [7] 3 (by norm_num)⟩

/-- C6: with span 1 the decay factor is 0 and the weighted mean at every
in-range index equals the series value there — no smoothing. -/
theorem c6_theorem (xs : List ℚ) (t : ℕ) (ht : t < xs.length) :
    midbandAt xs 1 t = valueAt xs t := by
  rw [midbandAt, decay_one, takeRev_eq_cons ht, ewmMeanRev]
  simp [wSum, sumW]

/-- C6 witness: on the series `[7, 9]` the span-1 mean at index 1 is the
value 9 itself. -/
theorem c6_witness :
    1 < ([7, 9] : List ℚ).length ∧ midbandAt [7, 9] 1 1 = valueAt [7, 9] 1 :=
  ⟨by simp, c6_theorem [7, 9] 1 (by simp)⟩

/-- C4 counterexample: the claim quantifies over every multiplier K ≥ 0 and
asserts band equality only when stdev = 0; at K = 0 (allowed by "K ≥ 0")
the bands collapse onto the mean while the stdev is positive — series
`[0, 1]`, span 3, index 1, stdev = √(1/2) ≠ 0. -/
theorem c4_counterexample :
    stdevAt [0, 1] 3 1 = some (Real.sqrt ((1/2 : ℚ) : ℝ)) ∧
    Real.sqrt ((1/2 : ℚ) : ℝ) ≠ 0 ∧
    ubAt [0, 1] 3 0 1 = some ((midbandAt [0, 1] 3 1 : ℝ)) ∧
    lbAt [0, 1] 3 0 1 = some ((midbandAt [0, 1] 3 1 : ℝ)) := by
  have hv : varAt [0, 1] 3 1 = some (1/2) := by
    norm_num [varAt, ewmVarRev, takeRev, ewmMeanRev, wSum, sumW, wSqDevSum,
      decayOfSpan, alphaOfSpan]
  refine ⟨by simp [stdevAt, hv], ?_, ?_, ?_⟩
  · rw [Real.sqrt_ne_zero']
    norm_num
  · simp [ubAt, stdevAt, hv]
  · simp [lbAt, stdevAt, hv]

/-- C4 amended: whenever the variance (hence the bands) is defined and
K ≥ 0, the bands satisfy lower ≤ mean ≤ upper; for a strictly positive
multiplier K > 0 the three coincide exactly when the stdev is 0 (at K = 0
they coincide regardless of the stdev). -/
theorem c4_theorem {xs : List ℚ} {span K : ℚ} {t : ℕ} {v : ℚ}
    (hspan : 1 ≤ span) (hK : 0 ≤ K) (hv : varAt xs span t = some v) :
    stdevAt xs span t = some (Real.sqrt (v : ℝ)) ∧
    ubAt xs span K t =
      some ((midbandAt xs span t : ℝ) + Real.sqrt (v : ℝ) * (K : ℝ)) ∧
    lbAt xs span K t =
      some ((midbandAt xs span t : ℝ) - Real.sqrt (v : ℝ) * (K : ℝ)) ∧
    (midbandAt xs span t : ℝ) - Real.sqrt (v : ℝ) * (K : ℝ) ≤
      (midbandAt xs span t : ℝ) ∧
    (midbandAt xs span t : ℝ) ≤
      (midbandAt xs span t : ℝ) + Real.sqrt (v : ℝ) * (K : ℝ) ∧
    (0 < K →
      (((midbandAt xs span t : ℝ) + Real.sqrt (v : ℝ) * (K : ℝ) =
          (midbandAt xs span t : ℝ) - Real.sqrt (v : ℝ) * (K : ℝ)) ↔
        Real.sqrt (v : ℝ) = 0)) := by
  have hKR : (0 : ℝ) ≤ (K : ℝ) := by exact_mod_cast hK
  have hsn : 0 ≤ Real.sqrt (v : ℝ) := Real.sqrt_nonneg _
  have hprod : 0 ≤ Real.sqrt (v : ℝ) * (K : ℝ) := mul_nonneg hsn hKR
  refine ⟨by simp [stdevAt, hv], by simp [ubAt, stdevAt, hv],
    by simp [lbAt, stdevAt, hv], by linarith, by linarith, ?_⟩
  intro hKpos
  have hKR' : (0 : ℝ) < (K : ℝ) := by exact_mod_cast hKpos
  constructor
  · intro h
    have hzero : Real.sqrt (v : ℝ) * (K : ℝ) = 0 := by linarith
    rcases mul_eq_zero.mp hzero with h' | h'
    · exact h'
    · exact absurd h' (ne_of_gt hKR')
  · intro h
    rw [h, zero_mul, add_zero, sub_zero]

/-- C4 witness: the amended statement at series `[0, 1]`, span 3, K = 3,
index 1 (variance 1/2). -/
theorem c4_witness :
    (1 : ℚ) ≤ 3 ∧ (0 : ℚ) ≤ 3 ∧
    (stdevAt [0, 1] 3 1 = some (Real.sqrt ((1/2 : ℚ) : ℝ)) ∧
      ubAt [0, 1] 3 3 1 =
        some ((midbandAt [0, 1] 3 1 : ℝ) + Real.sqrt ((1/2 : ℚ) : ℝ) * ((3 : ℚ) : ℝ)) ∧
      lbAt [0, 1] 3 3 1 =
        some ((midbandAt [0, 1] 3 1 : ℝ) - Real.sqrt ((1/2 : ℚ) : ℝ) * ((3 : ℚ) : ℝ)) ∧
      (midbandAt [0, 1] 3 1 : ℝ) - Real.sqrt ((1/2 : ℚ) : ℝ) * ((3 : ℚ) : ℝ) ≤
        (midbandAt [0, 1] 3 1 : ℝ) ∧
      (midbandAt [0, 1] 3 1 : ℝ) ≤
        (midbandAt [0, 1] 3 1 : ℝ) + Real.sqrt ((1/2 : ℚ) : ℝ) * ((3 : ℚ) : ℝ) ∧
      (0 < (3 : ℚ) →
        (((midbandAt [0, 1] 3 1 : ℝ) + Real.sqrt ((1/2 : ℚ) : ℝ) * ((3 : ℚ) : ℝ) =
            (midbandAt [0, 1] 3 1 : ℝ) - Real.sqrt ((1/2 : ℚ) : ℝ) * ((3 : ℚ) : ℝ)) ↔
          Real.sqrt ((1/2 : ℚ) : ℝ) = 0))) := by
  have hv : varAt [0, 1] 3 1 = some (1/2) := by
    norm_num [varAt, ewmVarRev, takeRev, ewmMeanRev, wSum, sumW, wSqDevSum,
      decayOfSpan, alphaOfSpan]
  exact ⟨by norm_num, by norm_num, c4_theorem (by norm_num) (by norm_num) hv⟩

/-- C9: whenever the bands are defined with upper strictly above lower and
the value sits exactly on the midband, `pct_b` is exactly 1/2. -/
theorem c9_theorem {xs : List ℚ} {span K : ℚ} {t : ℕ} {v : ℚ} {u l : ℝ}
    (hv : varAt xs span t = some v) (hu : ubAt xs span K t = some u)
    (hl : lbAt xs span K t = some l) (hul : l < u)
    (hx : valueAt xs t = midbandAt xs span t) :
    pct_bAt xs span K t = some (1/2) := by
  have hu' : (midbandAt xs span t : ℝ) + Real.sqrt (v : ℝ) * (K : ℝ) = u := by
    have := hu
    simp [ubAt, stdevAt, hv] at this
    exact this
  have hl' : (midbandAt xs span t : ℝ) - Real.sqrt (v : ℝ) * (K : ℝ) = l := by
    have := hl
    simp [lbAt, stdevAt, hv] at this
    exact this
  have ha : 0 < Real.sqrt (v : ℝ) * (K : ℝ) := by
    rw [← hu', ← hl'] at hul
    linarith
  have hne := add_ne_sub_of_pos (m := (midbandAt xs span t : ℝ)) ha
  have hxR : (valueAt xs t : ℝ) = (midbandAt xs span t : ℝ) := by exact_mod_cast hx
  rw [pct_bAt, hv]
  simp only [hne, if_false]
  rw [hxR]
  congr 1
  rw [div_eq_iff (by linarith)]
  ring

/-- C9 witness: series `[0, 2, 4/3]`, span 3, K = 3, index 2 — the value
4/3 equals the weighted mean there, the variance is 2/3 > 0, and `pct_b`
evaluates to 1/2. -/
theorem c9_witness : pct_bAt [0, 2, 4/3] 3 3 2 = some (1/2) := by
  have hv : varAt [0, 2, 4/3] 3 2 = some (2/3) := by
    norm_num [varAt, ewmVarRev, takeRev, ewmMeanRev, wSum, sumW, wSqDevSum,
      decayOfSpan, alphaOfSpan]
  have hm : midbandAt [0, 2, 4/3] 3 2 = 4/3 := by
    norm_num [midbandAt, ewmMeanRev, takeRev, wSum, sumW, decayOfSpan, alphaOfSpan]
  have hx : valueAt [0, 2, 4/3] 2 = midbandAt [0, 2, 4/3] 3 2 := by
    rw [hm]
    norm_num [valueAt]
  have hs : (0 : ℝ) < Real.sqrt ((2/3 : ℚ) : ℝ) := by
    rw [Real.sqrt_pos]
    norm_num
  have hK3 : (0 : ℝ) < ((3 : ℚ) : ℝ) := by norm_num
  have hprod : 0 < Real.sqrt ((2/3 : ℚ) : ℝ) * ((3 : ℚ) : ℝ) := mul_pos hs hK3
  have hu : ubAt [0, 2, 4/3] 3 3 2 =
      some ((midbandAt [0, 2, 4/3] 3 2 : ℝ) + Real.sqrt ((2/3 : ℚ) : ℝ) * ((3 : ℚ) : ℝ)) := by
    simp [ubAt, stdevAt, hv]
  have hl : lbAt [0, 2, 4/3] 3 3 2 =
      some ((midbandAt [0, 2, 4/3] 3 2 : ℝ) - Real.sqrt ((2/3 : ℚ) : ℝ) * ((3 : ℚ) : ℝ)) := by
    simp [lbAt, stdevAt, hv]
  exact c9_theorem hv hu hl (by linarith) hx

/-- C3 counterexample: on the constant series `[5, 5]` (span 3, K 3) at
index 1 the band has zero width and the value equals the midband, yet the
code's `pct_b` is undefined (0/0 is NaN), not the claimed conventional
0.5. -/
theorem c3_counterexample :
    valueAt [5, 5] 1 = midbandAt [5, 5] 3 1 ∧
    ubAt [5, 5] 3 3 1 = lbAt [5, 5] 3 3 1 ∧
    ubAt [5, 5] 3 3 1 = some ((midbandAt [5, 5] 3 1 : ℝ)) ∧
    pct_bAt [5, 5] 3 3 1 = none ∧
    pct_bAt [5, 5] 3 3 1 ≠ some (1/2) := by
  have hv : varAt [5, 5] 3 1 = some 0 := by
    norm_num [varAt, ewmVarRev, takeRev, ewmMeanRev, wSum, sumW, wSqDevSum,
      decayOfSpan, alphaOfSpan]
  have hm : midbandAt [5, 5] 3 1 = 5 := by
    norm_num [midbandAt, ewmMeanRev, takeRev, wSum, sumW, decayOfSpan, alphaOfSpan]
  have hx : valueAt [5, 5] 1 = (5 : ℚ) := by norm_num [valueAt]
  have hpb : pct_bAt [5, 5] 3 3 1 = none := pct_bAt_of_var_zero hv
  refine ⟨by rw [hx, hm], ?_, ?_, hpb, by rw [hpb]; simp⟩
  · simp [ubAt, lbAt, stdevAt, hv]
  · simp [ubAt, stdevAt, hv]

/-- C3 amended: with a positive multiplier, any in-range record whose bands
are defined but of zero width has undefined `pct_b` and is excluded from
the returned anomaly set — including when the value equals the midband
(no 0.5 convention exists in the code); `pct_b` is never a defined 0 or
an infinity there. -/
theorem c3_theorem {xs : List ℚ} {span K : ℚ} {t : ℕ} {v : ℚ} {u l : ℝ}
    (hspan : 1 ≤ span) (hK : 0 < K) (ht : t < xs.length)
    (hv : varAt xs span t = some v) (hu : ubAt xs span K t = some u)
    (hl : lbAt xs span K t = some l) (hul : u = l) :
    pct_bAt xs span K t = none ∧
    ¬ isAnomaly xs span K t ∧
    t ∉ anomalySet xs span K := by
  have hu' : (midbandAt xs span t : ℝ) + Real.sqrt (v : ℝ) * (K : ℝ) = u := by
    have := hu
    simp [ubAt, stdevAt, hv] at this
    exact this
  have hl' : (midbandAt xs span t : ℝ) - Real.sqrt (v : ℝ) * (K : ℝ) = l := by
    have := hl
    simp [lbAt, stdevAt, hv] at this
    exact this
  have hKR : (0 : ℝ) < (K : ℝ) := by exact_mod_cast hK
  have hs0 : Real.sqrt (v : ℝ) = 0 := by
    have hprod : Real.sqrt (v : ℝ) * (K : ℝ) = 0 := by
      rw [hul, ← hl'] at hu'
      linarith
    rcases mul_eq_zero.mp hprod with h' | h'
    · exact h'
    · exact absurd h' (ne_of_gt hKR)
  have hvzero : v = 0 := by
    have hv0 : 0 ≤ v := varAt_nonneg hspan hv
    have hle : (v : ℝ) ≤ 0 := Real.sqrt_eq_zero'.mp hs0
    have : v ≤ 0 := by exact_mod_cast hle
    linarith
  subst hvzero
  have hxm : valueAt xs t = midbandAt xs span t :=
    valueAt_eq_midband_of_var_zero hspan ht hv
  have hnoto : ¬ isAnomaly xs span K t := by
    rw [isAnomaly_iff hspan hK hv]
    rintro ⟨h1, _⟩
    rw [hxm] at h1
    exact lt_irrefl _ h1
  exact ⟨pct_bAt_of_var_zero hv, hnoto, by simp [anomalySet, hnoto]⟩

/-- C3 witness: the amended statement on the constant series `[5, 5]`
(span 3, K 3) at index 1, where the band is defined and has zero width. -/
theorem c3_witness :
    pct_bAt [5, 5] 3 3 1 = none ∧
    ¬ isAnomaly [5, 5] 3 3 1 ∧
    1 ∉ anomalySet [5, 5] 3 3 := by
  have hv : varAt [5, 5] 3 1 = some 0 := by
    norm_num [varAt, ewmVarRev, takeRev, ewmMeanRev, wSum, sumW, wSqDevSum,
      decayOfSpan, alphaOfSpan]
  have hu : ubAt [5, 5] 3 3 1 = some ((midbandAt [5, 5] 3 1 : ℝ)) := by
    simp [ubAt, stdevAt, hv]
  have hl : lbAt [5, 5] 3 3 1 = some ((midbandAt [5, 5] 3 1 : ℝ)) := by
    simp [lbAt, stdevAt, hv]
  exact c3_theorem (by norm_num) (by norm_num) (by simp) hv hu hl rfl

/-- C5: under a valid configuration (span ≥ 1, K > 0) an in-range record is
in the returned anomaly set exactly when its `pct_b` is defined and
strictly greater than 1 (the hard-coded threshold of `my_df.pct_b > 1`);
a record with defined `pct_b < 0` (below the lower band) is never
returned — the code has no lower-side check. -/
theorem c5_theorem {xs : List ℚ} {span K : ℚ} (hspan : 1 ≤ span) (hK : 0 < K)
    {t : ℕ} (ht : t < xs.length) :
    (t ∈ anomalySet xs span K ↔
      ∃ p, pct_bAt xs span K t = some p ∧ 1 < p) ∧
    (∀ p, pct_bAt xs span K t = some p → p < 0 → t ∉ anomalySet xs span K) := by
  have hmem : t ∈ anomalySet xs span K ↔ isAnomaly xs span K t := by
    simp [anomalySet, ht]
  cases hvar : varAt xs span t with
  | none =>
    rw [hmem]
    constructor
    · constructor
      · intro h
        exact absurd h (isAnomaly_of_var_none hvar)
      · rintro ⟨p, hp, _⟩
        rw [pct_bAt_of_var_none hvar] at hp
        exact absurd hp (by simp)
    · intro p hp
      rw [pct_bAt_of_var_none hvar] at hp
      exact absurd hp (by simp)
  | some v =>
    rcases (varAt_nonneg hspan hvar).lt_or_eq with hpos | hzero
    · have hiff : t ∈ anomalySet xs span K ↔
          ∃ p, pct_bAt xs span K t = some p ∧ 1 < p := by
        rw [hmem, isAnomaly_iff hspan hK hvar, ← pct_b_one_lt_iff hK hvar hpos]
      refine ⟨hiff, ?_⟩
      intro p hp hneg hmemt
      obtain ⟨q, hq, hq1⟩ := hiff.mp hmemt
      rw [hp] at hq
      have : p = q := by
        exact Option.some.injEq _ _ ▸ hq
      rw [this] at hneg
      linarith
    · have hvz : varAt xs span t = some 0 := by rw [hvar, ← hzero]
      have hxm : valueAt xs t = midbandAt xs span t :=
        valueAt_eq_midband_of_var_zero hspan ht hvz
      have hnoto : ¬ isAnomaly xs span K t := by
        rw [isAnomaly_iff hspan hK hvz]
        rintro ⟨h1, _⟩
        rw [hxm] at h1
        exact lt_irrefl _ h1
      have hpb : pct_bAt xs span K t = none := pct_bAt_of_var_zero hvz
      constructor
      · rw [hmem]
        constructor
        · intro h
          exact absurd h hnoto
        · rintro ⟨p, hp, _⟩
          rw [hpb] at hp
          exact absurd hp (by simp)
      · intro p hp
        rw [hpb] at hp
        exact absurd hp (by simp)

/-- C5 witness: the biconditional and the lower-side exclusion at the
concrete series `[2, 3]`, span 3, K 3, index 1. -/
theorem c5_witness :
    (1 : ℚ) ≤ 3 ∧ (0 : ℚ) < 3 ∧ 1 < ([2, 3] : List ℚ).length ∧
    ((1 ∈ anomalySet [2, 3] 3 3 ↔
        ∃ p, pct_bAt [2, 3] 3 3 1 = some p ∧ 1 < p) ∧
      (∀ p, pct_bAt [2, 3] 3 3 1 = some p → p < 0 → 1 ∉ anomalySet [2, 3] 3 3)) :=
  ⟨by norm_num, by norm_num, by simp,
    c5_theorem (by norm_num) (by norm_num) (by simp)⟩

/-- C10: for any valid span (≥ 1) and in-range index, the weighted mean
lies between the minimum and the maximum of the values seen so far — it is
a convex combination of the prefix with nonnegative geometric weights. -/
theorem c10_theorem {xs : List ℚ} {span : ℚ} (hspan : 1 ≤ span) {t : ℕ}
    (ht : t < xs.length) :
    ∃ lo hi, lo ∈ xs.take (t + 1) ∧ hi ∈ xs.take (t + 1) ∧
      (∀ y ∈ xs.take (t + 1), lo ≤ y ∧ y ≤ hi) ∧
      lo ≤ midbandAt xs span t ∧ midbandAt xs span t ≤ hi := by
  have hd : 0 ≤ decayOfSpan span := decay_nonneg hspan
  have hlen : xs.take (t + 1) ≠ [] := by
    have : (xs.take (t + 1)).length = t + 1 := by
      rw [List.length_take]
      omega
    intro h
    rw [h] at this
    simp at this
  obtain ⟨y0, ys, hcons⟩ : ∃ y0 ys, xs.take (t + 1) = y0 :: ys := by
    cases h : xs.take (t + 1) with
    | nil => exact absurd h hlen
    | cons a l => exact ⟨a, l, rfl⟩
  refine ⟨ys.foldl min y0, ys.foldl max y0, ?_, ?_, ?_, ?_, ?_⟩
  · rw [hcons]; exact foldl_min_mem ys y0
  · rw [hcons]; exact foldl_max_mem ys y0
  · intro y hy
    rw [hcons] at hy
    exact ⟨foldl_min_le ys y0 y hy, le_foldl_max ys y0 y hy⟩
  · rw [midbandAt, takeRev]
    refine le_ewmMeanRev hd (by simp [hcons]) ?_
    intro y hy
    rw [List.mem_reverse, hcons] at hy
    exact foldl_min_le ys y0 y hy
  · rw [midbandAt, takeRev]
    refine ewmMeanRev_le hd (by simp [hcons]) ?_
    intro y hy
    rw [List.mem_reverse, hcons] at hy
    exact le_foldl_max ys y0 y hy

/-- C10 witness: the bound at the concrete series `[2, 3]`, span 3,
index 1. -/
theorem c10_witness :
    (1 : ℚ) ≤ 3 ∧ 1 < ([2, 3] : List ℚ).length ∧
    ∃ lo hi, lo ∈ ([2, 3] : List ℚ).take 2 ∧ hi ∈ ([2, 3] : List ℚ).take 2 ∧
      (∀ y ∈ ([2, 3] : List ℚ).take 2, lo ≤ y ∧ y ≤ hi) ∧
      lo ≤ midbandAt [2, 3] 3 1 ∧ midbandAt [2, 3] 3 1 ≤ hi :=
  ⟨by norm_num, by simp, c10_theorem (by norm_num) (by simp)⟩

/-- C7: for a user with at least one event, `one_user_df_prep` emits
exactly one row per calendar day from the user's first to last observed
date inclusive (a contiguous `range'`), each row counting that day's
events, and a zero count for days with no events. -/
theorem c7_theorem (events : List (ℕ × ℕ)) (user : ℕ) (d0 : ℕ) (rest : List ℕ)
    (h : one_user_events events user = d0 :: rest) :
    (one_user_df_prep events user).map Prod.fst =
      List.range' (rest.foldl min d0) (rest.foldl max d0 + 1 - rest.foldl min d0) ∧
    (∀ p ∈ one_user_df_prep events user,
      p.2 = (one_user_events events user).count p.1) ∧
    (∀ p ∈ one_user_df_prep events user,
      p.1 ∉ one_user_events events user → p.2 = 0) ∧
    rest.foldl min d0 ∈ one_user_events events user ∧
    rest.foldl max d0 ∈ one_user_events events user ∧
    (∀ x ∈ one_user_events events user,
      rest.foldl min d0 ≤ x ∧ x ≤ rest.foldl max d0) := by
  have hdef : one_user_df_prep events user =
      (List.range (rest.foldl max d0 + 1 - rest.foldl min d0)).map fun i =>
        (rest.foldl min d0 + i, (d0 :: rest).count (rest.foldl min d0 + i)) := by
    simp only [one_user_df_prep, h]
  refine ⟨?_, ?_, ?_, ?_, ?_, ?_⟩
  · rw [hdef, List.map_map, List.range'_eq_map_range]
    rfl
  · intro p hp
    rw [hdef] at hp
    obtain ⟨i, _, rfl⟩ := List.mem_map.mp hp
    rw [h]
  · intro p hp hnot
    rw [hdef] at hp
    obtain ⟨i, _, rfl⟩ := List.mem_map.mp hp
    rw [h] at hnot
    exact List.count_eq_zero.mpr hnot
  · rw [h]
    exact foldl_min_mem rest d0
  · rw [h]
    exact foldl_max_mem rest d0
  · intro x hx
    rw [h] at hx
    exact ⟨foldl_min_le rest d0 x hx, le_foldl_max rest d0 x hx⟩

/-- C7 witness: a user whose events span a 3-day gap — dates 10, 10, 14 —
gets a contiguous daily table from 10 to 14 with zero counts in the gap. -/
theorem c7_witness :
    (one_user_df_prep [(1, 10), (1, 10), (2, 3), (1, 14)] 1).map Prod.fst =
      List.range' ([10, 14].foldl min 10)
        ([10, 14].foldl max 10 + 1 - [10, 14].foldl min 10) ∧
    (∀ p ∈ one_user_df_prep [(1, 10), (1, 10), (2, 3), (1, 14)] 1,
      p.2 = (one_user_events [(1, 10), (1, 10), (2, 3), (1, 14)] 1).count p.1) ∧
    (∀ p ∈ one_user_df_prep [(1, 10), (1, 10), (2, 3), (1, 14)] 1,
      p.1 ∉ one_user_events [(1, 10), (1, 10), (2, 3), (1, 14)] 1 → p.2 = 0) ∧
    [10, 14].foldl min 10 ∈ one_user_events [(1, 10), (1, 10), (2, 3), (1, 14)] 1 ∧
    [10, 14].foldl max 10 ∈ one_user_events [(1, 10), (1, 10), (2, 3), (1, 14)] 1 ∧
    (∀ x ∈ one_user_events [(1, 10), (1, 10), (2, 3), (1, 14)] 1,
      [10, 14].foldl min 10 ≤ x ∧ x ≤ [10, 14].foldl max 10) :=
  c7_theorem [(1, 10), (1, 10), (2, 3), (1, 14)] 1 10 [10, 14] (by decide)

/-- C8 counterexample: the claim says a configuration with K ≤ 0 is
rejected before any series is processed; in fact `compute_pct_b` happily
runs with K = 0 and returns a full band table for the series `[2, 3]`. -/
theorem c8_counterexample :
    (0 : ℚ) ≤ 0 ∧
    compute_pct_b [2, 3] 3 0 =
      Except.ok [{ value := 2, midband := 2, variance := none },
        { value := 3, midband := 8/3, variance := some (1/2) }] := by
  have h0m : midbandAt [2, 3] 3 0 = 2 := midbandAt_zero 2 [3] 3
  have h0v : varAt [2, 3] 3 0 = none := varAt_zero 2 [3] 3
  have h1m : midbandAt [2, 3] 3 1 = 8/3 := by
    norm_num [midbandAt, ewmMeanRev, takeRev, wSum, sumW, decayOfSpan, alphaOfSpan]
  have h1v : varAt [2, 3] 3 1 = some (1/2) := by
    norm_num [varAt, ewmVarRev, takeRev, ewmMeanRev, wSum, sumW, wSqDevSum,
      decayOfSpan, alphaOfSpan]
  have hrange : List.range ([2, 3] : List ℚ).length = [0, 1] := by decide
  refine ⟨le_refl 0, ?_⟩
  rw [compute_pct_b, if_neg (by norm_num), hrange]
  simp [h0m, h0v, h1m, h1v, valueAt]

/-- C8 amended: the code performs no eager configuration validation.  With
any K ≤ 0 and span ≥ 1 the pipeline runs anyway and produces one band
record per input point; a span < 1 is rejected only by the `ewm` library
call when the series is actually processed, not at construction. -/
theorem c8_theorem (xs : List ℚ) (span K : ℚ) (hK : K ≤ 0) :
    (1 ≤ span →
      ∃ rs, compute_pct_b xs span K = Except.ok rs ∧ rs.length = xs.length) ∧
    (span < 1 →
      compute_pct_b xs span K = Except.error "span must satisfy: span >= 1") := by
  constructor
  · intro hspan
    refine ⟨(List.range xs.length).map fun t =>
      { value := valueAt xs t, midband := midbandAt xs span t,
        variance := varAt xs span t }, ?_, ?_⟩
    · rw [compute_pct_b, if_neg (not_lt.mpr hspan)]
    · simp
  · intro hspan
    rw [compute_pct_b, if_pos hspan]

/-- C8 witness: the amended statement at series `[2, 3]`, span 3,
K = -1 ≤ 0. -/
theorem c8_witness :
    (-1 : ℚ) ≤ 0 ∧
    ((1 ≤ (3 : ℚ) →
      ∃ rs, compute_pct_b [2, 3] 3 (-1) = Except.ok rs ∧
        rs.length = ([2, 3] : List ℚ).length) ∧
    ((3 : ℚ) < 1 →
      compute_pct_b [2, 3] 3 (-1) = Except.error "span must satisfy: span >= 1")) :=
  ⟨by norm_num, c8_theorem [2, 3] 3 (-1) (by norm_num)⟩

/-- C1 counterexample: at span 3, K 3 the eighth record of the scenario
series (value 50) does NOT have pct_b > 1 and is NOT in the returned
anomaly set — the `ewm` bands include the current observation, so the
spike inflates the stdev itself and pct_b stays at about 0.635. -/
theorem c1_counterexample :
    (∃ p, pct_bAt scenarioSeries 3 3 7 = some p ∧ p ≤ 1) ∧
    7 ∉ anomalySet scenarioSeries 3 3 := by
  have hv7 : varAt scenarioSeries 3 7 = some (18134533/21590) := by
    norm_num [scenarioSeries, varAt, ewmVarRev, takeRev, ewmMeanRev, wSum, sumW,
      wSqDevSum, decayOfSpan, alphaOfSpan]
  constructor
  · refine (pct_b_le_one_iff (by norm_num) hv7 (by norm_num)).mpr (Or.inr ?_)
    norm_num [scenarioSeries, valueAt, midbandAt, ewmMeanRev, takeRev, wSum, sumW,
      decayOfSpan, alphaOfSpan]
  · rintro ⟨_, hanom⟩
    have hcond := (isAnomaly_iff (by norm_num) (by norm_num) hv7).mp hanom
    rw [show (3 : ℚ) ^ 2 * (18134533/21590) = 163210797/21590 by norm_num] at hcond
    norm_num [scenarioSeries, valueAt, midbandAt, ewmMeanRev, takeRev, wSum, sumW,
      decayOfSpan, alphaOfSpan] at hcond

/-- C1 amended: on the scenario series `[2,3,2,4,3,2,3,50]` with span 3
and K 3, the first record's pct_b is undefined (not ≤ 1), records 2–8 all
have a defined pct_b ≤ 1 — including the eighth (the spike of 50) — and
the returned anomaly set is empty. -/
theorem c1_theorem :
    pct_bAt scenarioSeries 3 3 0 = none ∧
    (∀ t, 1 ≤ t → t ≤ 7 →
      ∃ p, pct_bAt scenarioSeries 3 3 t = some p ∧ p ≤ 1) ∧
    anomalySet scenarioSeries 3 3 = ∅ := by
  have hv0 : varAt scenarioSeries 3 0 = none := varAt_zero 2 [3, 2, 4, 3, 2, 3, 50] 3
  have hv1 : varAt scenarioSeries 3 1 = some (1/2) := by
    norm_num [scenarioSeries, varAt, ewmVarRev, takeRev, ewmMeanRev, wSum, sumW,
      wSqDevSum, decayOfSpan, alphaOfSpan]
  have hv2 : varAt scenarioSeries 3 2 = some (5/14) := by
    norm_num [scenarioSeries, varAt, ewmVarRev, takeRev, ewmMeanRev, wSum, sumW,
      wSqDevSum, decayOfSpan, alphaOfSpan]
  have hv3 : varAt scenarioSeries 3 3 = some (93/70) := by
    norm_num [scenarioSeries, varAt, ewmVarRev, takeRev, ewmMeanRev, wSum, sumW,
      wSqDevSum, decayOfSpan, alphaOfSpan]
  have hv4 : varAt scenarioSeries 3 4 = some (197/310) := by
    norm_num [scenarioSeries, varAt, ewmVarRev, takeRev, ewmMeanRev, wSum, sumW,
      wSqDevSum, decayOfSpan, alphaOfSpan]
  have hv5 : varAt scenarioSeries 3 5 = some (997/1302) := by
    norm_num [scenarioSeries, varAt, ewmVarRev, takeRev, ewmMeanRev, wSum, sumW,
      wSqDevSum, decayOfSpan, alphaOfSpan]
  have hv6 : varAt scenarioSeries 3 6 = some (2437/5334) := by
    norm_num [scenarioSeries, varAt, ewmVarRev, takeRev, ewmMeanRev, wSum, sumW,
      wSqDevSum, decayOfSpan, alphaOfSpan]
  have hv7 : varAt scenarioSeries 3 7 = some (18134533/21590) := by
    norm_num [scenarioSeries, varAt, ewmVarRev, takeRev, ewmMeanRev, wSum, sumW,
      wSqDevSum, decayOfSpan, alphaOfSpan]
  have step : ∀ (t : ℕ) (v : ℚ), varAt scenarioSeries 3 t = some v → 0 < v →
      (valueAt scenarioSeries t ≤ midbandAt scenarioSeries 3 t ∨
        (valueAt scenarioSeries t - midbandAt scenarioSeries 3 t) ^ 2 ≤
          (3 : ℚ) ^ 2 * v) →
      (∃ p, pct_bAt scenarioSeries 3 3 t = some p ∧ p ≤ 1) ∧
        ¬ isAnomaly scenarioSeries 3 3 t := by
    intro t v hv hvpos hdisj
    refine ⟨(pct_b_le_one_iff (by norm_num) hv hvpos).mpr hdisj, ?_⟩
    rw [isAnomaly_iff (by norm_num) (by norm_num) hv]
    rintro ⟨h1, h2⟩
    rcases hdisj with h | h
    · linarith
    · linarith
  have s1 := step 1 (1/2) hv1 (by norm_num) (Or.inr (by
    norm_num [scenarioSeries, valueAt, midbandAt, ewmMeanRev, takeRev, wSum, sumW,
      decayOfSpan, alphaOfSpan]))
  have s2 := step 2 (5/14) hv2 (by norm_num) (Or.inl (by
    norm_num [scenarioSeries, valueAt, midbandAt, ewmMeanRev, takeRev, wSum, sumW,
      decayOfSpan, alphaOfSpan]))
  have s3 := step 3 (93/70) hv3 (by norm_num) (Or.inr (by
    norm_num [scenarioSeries, valueAt, midbandAt, ewmMeanRev, takeRev, wSum, sumW,
      decayOfSpan, alphaOfSpan]))
  have s4 := step 4 (197/310) hv4 (by norm_num) (Or.inl (by
    norm_num [scenarioSeries, valueAt, midbandAt, ewmMeanRev, takeRev, wSum, sumW,
      decayOfSpan, alphaOfSpan]))
  have s5 := step 5 (997/1302) hv5 (by norm_num) (Or.inl (by
    norm_num [scenarioSeries, valueAt, midbandAt, ewmMeanRev, takeRev, wSum, sumW,
      decayOfSpan, alphaOfSpan]))
  have s6 := step 6 (2437/5334) hv6 (by norm_num) (Or.inr (by
    norm_num [scenarioSeries, valueAt, midbandAt, ewmMeanRev, takeRev, wSum, sumW,
      decayOfSpan, alphaOfSpan]))
  have s7 := step 7 (18134533/21590) hv7 (by norm_num) (Or.inr (by
    norm_num [scenarioSeries, valueAt, midbandAt, ewmMeanRev, takeRev, wSum, sumW,
      decayOfSpan, alphaOfSpan]))
  refine ⟨pct_bAt_of_var_none hv0, ?_, ?_⟩
  · intro t h1 h7
    interval_cases t
    · exact s1.1
    · exact s2.1
    · exact s3.1
    · exact s4.1
    · exact s5.1
    · exact s6.1
    · exact s7.1
  · rw [Set.eq_empty_iff_forall_not_mem]
    rintro t ⟨htlen, hanom⟩
    have ht8 : t < 8 := by simpa [scenarioSeries] using htlen
    interval_cases t
    · exact isAnomaly_of_var_none hv0 hanom
    · exact s1.2 hanom
    · exact s2.2 hanom
    · exact s3.2 hanom
    · exact s4.2 hanom
    · exact s5.2 hanom
    · exact s6.2 hanom
    · exact s7.2 hanom
